import Mathlib

/-!
Verification of the Document orchestration layer of the flowy-ot client
(`rust-lib/flowy-ot/src/client/document.rs`).

The Document code is embedded directly from the source.  The delta algebra,
the interval and attribute primitives and the history stacks are external
collaborators of that file (their code lives outside the given sources), so
they are modelled from the specification's contracts (section 6 of the spec):
every such definition carries a doc comment starting with
"Modelled from the spec:".
-/

namespace FlowyOT

/-- Modelled from the spec: a formatting-state value with three forms — no
formatting (`Empty`), inherit surrounding (`Follow`), and an explicit mapping
of attribute name to add/remove marker (`Custom`, `true` = add, `false` =
remove). -/
inductive Attributes where
  | Empty : Attributes
  | Follow : Attributes
  | Custom : List (String × Bool) → Attributes
  deriving DecidableEq, Repr

/-- Modelled from the spec: an operation is one of Insert(content, attributes),
Retain(length, attributes), Delete(length). -/
inductive Operation where
  | Insert : List Char → Attributes → Operation
  | Retain : Nat → Attributes → Operation
  | Delete : Nat → Operation
  deriving DecidableEq, Repr

/-- Modelled from the spec: a Delta is an ordered sequence of Operations. -/
structure Delta where
  ops : List Operation
  deriving DecidableEq, Repr

/-- Modelled from the spec: a half-open range [start, stop) over document
positions (the source's field `end` is a Lean keyword, so it is called `stop`
here). -/
structure Interval where
  start : Nat
  stop : Nat
  deriving DecidableEq, Repr

/-- Modelled from the spec: two independent delta stacks (undo, redo). -/
structure History where
  undo_stack : List Delta
  redo_stack : List Delta
  deriving DecidableEq, Repr

/-- The Document of `document.rs`: the current delta, the history and the
revision counter. -/
structure Document where
  data : Delta
  history : History
  rev_id_counter : Nat
  deriving DecidableEq, Repr

/-- Modelled from the spec: error kinds; UndoFail and RedoFail are the
caller-visible ones, ComposeMismatch stands for the delta algebra rejecting a
length mismatch. -/
inductive OTError where
  | UndoFail : OTError
  | RedoFail : OTError
  | ComposeMismatch : OTError
  deriving DecidableEq, Repr

/-- Modelled from the spec: a success result carrying the resulting document
length. -/
structure UndoResult where
  len : Nat
  deriving DecidableEq, Repr

/-- The Rust `Result<UndoResult, OTError>` returned by undo/redo. -/
inductive OTResult where
  | ok : UndoResult → OTResult
  | fail : OTError → OTResult
  deriving DecidableEq, Repr

/-- Input length consumed by one operation (retained and deleted lengths). -/
def Operation.base_length : Operation → Nat
  | .Insert _ _ => 0
  | .Retain n _ => n
  | .Delete n => n

/-- Output length produced by one operation (retained and inserted lengths). -/
def Operation.target_length : Operation → Nat
  | .Insert s _ => s.length
  | .Retain n _ => n
  | .Delete _ => 0

/-- Modelled from the spec: `base_len`, the declared input length of a delta
(sum of retained and deleted lengths). -/
def Delta.base_len (d : Delta) : Nat := (d.ops.map Operation.base_length).sum

/-- Modelled from the spec: `target_len`, the declared output length of a
delta (sum of retained and inserted lengths). -/
def Delta.target_len (d : Delta) : Nat := (d.ops.map Operation.target_length).sum

/-- The attributed characters contributed by one operation (only Insert
contributes content). -/
def Operation.chars : Operation → List (Char × Attributes)
  | .Insert s a => s.map (fun c => (c, a))
  | _ => []

/-- The attributed content denoted by a delta's insert operations. -/
def Delta.flatten (d : Delta) : List (Char × Attributes) :=
  (d.ops.map Operation.chars).flatten

/-- Modelled from the spec: restyling one character with a retain's
attributes — "retain (keep, optionally restyle)": Empty and Follow keep the
character unchanged, Custom replaces its formatting. -/
def Attributes.restyle (a : Attributes) (c : Char × Attributes) : Char × Attributes :=
  match a with
  | .Empty => c
  | .Follow => c
  | .Custom l => (c.1, .Custom l)

/-- Modelled from the spec: applying an operation sequence to attributed
content — insert emits new content, retain keeps (optionally restyles) the
next characters, delete drops them. -/
def apply_ops : List (Char × Attributes) → List Operation → List (Char × Attributes)
  | _, [] => []
  | cs, .Insert s a :: rest => s.map (fun c => (c, a)) ++ apply_ops cs rest
  | cs, .Retain n a :: rest => (cs.take n).map a.restyle ++ apply_ops (cs.drop n) rest
  | cs, .Delete n :: rest => apply_ops (cs.drop n) rest

/-- The insert-only delta representing a document state with the given
attributed content (one insert per character). -/
def state_of (cs : List (Char × Attributes)) : Delta :=
  ⟨cs.map (fun c => .Insert [c.1] c.2)⟩

/-- Modelled from the spec: the empty delta (input length = output length
= 0); this is `Delta::new` and `Delta::default`. -/
def Delta.new : Delta := ⟨[]⟩

/-- Modelled from the spec: emptiness test of a delta. -/
def Delta.is_empty (d : Delta) : Bool := d.ops.isEmpty

/-- Modelled from the spec: append a retain, dropping a zero-length one. -/
def Delta.retain (d : Delta) (n : Nat) (a : Attributes) : Delta :=
  if n = 0 then d else ⟨d.ops ++ [.Retain n a]⟩

/-- Modelled from the spec: append an insert, dropping an empty one. -/
def Delta.insert (d : Delta) (s : List Char) (a : Attributes) : Delta :=
  if s = [] then d else ⟨d.ops ++ [.Insert s a]⟩

/-- Modelled from the spec: append a delete, dropping a zero-length one. -/
def Delta.delete (d : Delta) (n : Nat) : Delta :=
  if n = 0 then d else ⟨d.ops ++ [.Delete n]⟩

/-- Modelled from the spec: append an operation to a delta. -/
def Delta.add (d : Delta) (op : Operation) : Delta :=
  match op with
  | .Insert s a => d.insert s a
  | .Retain n a => d.retain n a
  | .Delete n => d.delete n

/-- Modelled from the spec: compose(self, other) — the sequential merge of two
deltas, requiring self's output length to equal other's input length and
failing otherwise; in this client self is always a document state (an
insert-only delta), so the merge is the state obtained by applying `other` to
self's content. -/
def Delta.compose (a b : Delta) : Option Delta :=
  if a.target_len = b.base_len then some (state_of (apply_ops a.flatten b.ops)) else none

/-- The delta turning content X into content Y: empty when they already agree,
otherwise delete everything and insert Y. -/
def diff_delta (X Y : List (Char × Attributes)) : Delta :=
  if X = Y then ⟨[]⟩
  else ⟨(if X = [] then [] else [.Delete X.length]) ++ (state_of Y).ops⟩

/-- Modelled from the spec: invert(appliedDelta, resultingState) — the delta
mapping the state obtained by applying `d` at `base` back to `base`'s own
state. -/
def Delta.invert_delta (d base : Delta) : Delta :=
  diff_delta (apply_ops base.flatten d.ops) base.flatten

/-- Modelled from the spec: attribute lookup over an interval; returns the
common formatting of the characters in the interval, and Empty when the
interval is empty, out of range, or spans differently-formatted runs. -/
def Delta.get_attributes (d : Delta) (iv : Interval) : Attributes :=
  match (d.flatten.drop iv.start).take (iv.stop - iv.start) with
  | [] => .Empty
  | c :: rest => if rest.all (fun x => x.2 = c.2) then c.2 else .Empty

/-- Modelled from the spec: size = stop − start. -/
def Interval.size (iv : Interval) : Nat := iv.stop - iv.start

/-- Modelled from the spec: emptiness test of an interval. -/
def Interval.is_empty (iv : Interval) : Bool := decide (iv.stop ≤ iv.start)

/-- Modelled from the spec: intersection of two intervals. -/
def Interval.intersect (a b : Interval) : Interval :=
  ⟨max a.start b.start, min a.stop b.stop⟩

/-- Modelled from the spec: transform(self, other) — the pairwise transform of
the delta algebra; requires equal declared input lengths and fails otherwise;
self's operations take priority and are placed before other's retained
region. -/
def Delta.transform (a b : Delta) : Option (Delta × Delta) :=
  if a.base_len = b.base_len then
    some (⟨a.ops ++ [.Retain b.target_len .Empty]⟩, ⟨.Retain a.target_len .Empty :: b.ops⟩)
  else none

/-- Modelled from the spec: canonical export of a delta to a serialized
textual form (the concrete format is collaborator-owned). -/
def Attributes.to_json : Attributes → String
  | .Empty => "e"
  | .Follow => "f"
  | .Custom l => "c" ++ l.foldl (fun acc kv => acc ++ kv.1 ++ (cond kv.2 "1" "0")) ""

/-- Modelled from the spec: canonical export of one operation. -/
def Operation.to_json : Operation → String
  | .Insert s a => "i" ++ String.mk s ++ a.to_json
  | .Retain n a => "r" ++ toString n ++ a.to_json
  | .Delete n => "d" ++ toString n

/-- Modelled from the spec: canonical export of a delta. -/
def Delta.to_json (d : Delta) : String :=
  d.ops.foldl (fun acc op => acc ++ op.to_json) ""

/-- Modelled from the spec: a fresh History has two empty stacks. -/
def History.new : History := ⟨[], []⟩

/-- Modelled from the spec: non-destructive can-pop query on the undo stack. -/
def History.can_undo (h : History) : Bool := !h.undo_stack.isEmpty

/-- Modelled from the spec: non-destructive can-pop query on the redo stack. -/
def History.can_redo (h : History) : Bool := !h.redo_stack.isEmpty

/-- Modelled from the spec: push onto the undo stack. -/
def History.add_undo (h : History) (d : Delta) : History :=
  ⟨d :: h.undo_stack, h.redo_stack⟩

/-- Modelled from the spec: push onto the redo stack. -/
def History.add_redo (h : History) (d : Delta) : History :=
  ⟨h.undo_stack, d :: h.redo_stack⟩

/-- `split_length_with_interval` of document.rs, with the spec's reading of
the interval prefix/suffix operations: prefix = [0, interval.start), suffix =
[interval.end, length). -/
def split_length_with_interval (length : Nat) (iv : Interval) :
    Interval × Interval × Interval :=
  (⟨0, iv.start⟩, iv, ⟨iv.stop, length⟩)

/-- The walk of `split_interval_with_delta`: only Insert operations advance
the position and contribute sub-ranges; empty intersections are skipped. -/
def split_go (iv : Interval) : List Operation → Nat → List Interval
  | [], _ => []
  | .Insert s _ :: rest, start =>
      let e := start + s.length
      let ni := iv.intersect ⟨start, e⟩
      (if ni.is_empty then [] else [ni]) ++ split_go iv rest e
  | .Retain _ _ :: rest, start => split_go iv rest start
  | .Delete _ :: rest, start => split_go iv rest start

/-- `split_interval_with_delta` of document.rs. -/
def split_interval_with_delta (d : Delta) (iv : Interval) : List Interval :=
  split_go iv d.ops 0

/-- `Document::new` of document.rs. -/
def Document.new : Document := ⟨Delta.new, History.new, 1⟩

/-- `Document::can_undo` of document.rs. -/
def Document.can_undo (doc : Document) : Bool := doc.history.can_undo

/-- `Document::can_redo` of document.rs. -/
def Document.can_redo (doc : Document) : Bool := doc.history.can_redo

/-- The retain-rebuilding loop of `update_with_op`: for each sub-range of the
re-partitioned region, a retain of its size carrying its looked-up
attributes. -/
def retain_over (data : Delta) (iv : Interval) (acc : Delta) : Delta :=
  (split_interval_with_delta data iv).foldl
    (fun d i => d.retain i.size (data.get_attributes i)) acc

/-- The result delta built by `update_with_op` of document.rs: retains over
the re-partitioned prefix, the new operation, retains over the re-partitioned
suffix. -/
def build_new_delta (data : Delta) (op : Operation) (iv : Interval) : Delta :=
  let s := split_length_with_interval data.target_len iv
  let pre := s.1
  let mid := s.2.1
  let suf := s.2.2
  let d0 : Delta := if pre.is_empty = false ∧ pre ≠ mid then retain_over data pre Delta.new else Delta.new
  let d1 : Delta := d0.add op
  if suf.is_empty = false then retain_over data suf d1 else d1

/-- `Document::update_with_op` of document.rs; `none` models the panic of the
`unwrap` on a failed composition. -/
def Document.update_with_op (doc : Document) (op : Operation) (iv : Interval) :
    Option Document :=
  let new_delta := build_new_delta doc.data op iv
  match doc.data.compose new_delta with
  | none => none
  | some new_data =>
      let undo_delta := new_data.invert_delta doc.data
      let history :=
        if undo_delta.is_empty = false then doc.history.add_undo undo_delta else doc.history
      some ⟨new_data, history, doc.rev_id_counter + 1⟩

/-- The attributes stamped on inserted text by `Document::edit`: the lookup
over the single-position probe interval, defaulting Empty to Follow. -/
def Document.edit_attributes (doc : Document) (index : Nat) : Attributes :=
  let probe : Interval := ⟨index, index + 1⟩
  let attributes := doc.data.get_attributes probe
  if attributes = .Empty then .Follow else attributes

/-- `Document::edit` of document.rs; the out-of-bounds check only logs, so it
has no observable effect here. -/
def Document.edit (doc : Document) (index : Nat) (text : String) : Option Document :=
  let insert : Operation := .Insert text.data (doc.edit_attributes index)
  doc.update_with_op insert ⟨index, index⟩

/-- Modelled from the spec: the entries of an attribute set (Empty and Follow
carry none). -/
def attr_data : Attributes → List (String × Bool)
  | .Empty => []
  | .Follow => []
  | .Custom l => l

/-- Modelled from the spec: `AttributesData::merge` — merge the other set's
entries into this one without overwriting entries already present. -/
def merge_data (self other : List (String × Bool)) : List (String × Bool) :=
  self ++ other.filter (fun kv => !self.any (fun kv2 => kv2.1 == kv.1))

/-- `Document::update_with_attribute` of document.rs. -/
def Document.update_with_attribute (doc : Document) (attributes : Attributes)
    (iv : Interval) : Option Document :=
  let old_attributes := doc.data.get_attributes iv
  let new_attributes : Attributes :=
    match attributes with
    | .Follow => old_attributes
    | .Custom attr_d => .Custom (merge_data attr_d (attr_data old_attributes))
    | .Empty => .Empty
  doc.update_with_op (.Retain iv.size new_attributes) iv

/-- `Document::format` of document.rs; AttrsBuilder's add/remove produce a
single-entry Custom set with an add (`true`) or remove (`false`) marker. -/
def Document.format (doc : Document) (iv : Interval) (attr : String)
    (enable : Bool) : Option Document :=
  doc.update_with_attribute (.Custom [(attr, enable)]) iv

/-- `Document::delete` of document.rs. -/
def Document.delete (doc : Document) (iv : Interval) : Option Document :=
  doc.update_with_op (.Delete iv.size) iv

/-- `Document::undo` of document.rs: History's pop happens first, then the
composition (whose failure propagates as an error), then the cross-push of
the reversing delta onto the redo stack. -/
def Document.undo (doc : Document) : OTResult × Document :=
  match doc.history.undo_stack with
  | [] => (.fail .UndoFail, doc)
  | d :: rest =>
      match doc.data.compose d with
      | none => (.fail .ComposeMismatch, { doc with history := ⟨rest, doc.history.redo_stack⟩ })
      | some new_delta =>
          let redo_delta := d.invert_delta doc.data
          (.ok ⟨new_delta.target_len⟩,
            ⟨new_delta, ⟨rest, redo_delta :: doc.history.redo_stack⟩, doc.rev_id_counter⟩)

/-- `Document::redo` of document.rs, symmetric to undo. -/
def Document.redo (doc : Document) : OTResult × Document :=
  match doc.history.redo_stack with
  | [] => (.fail .RedoFail, doc)
  | d :: rest =>
      match doc.data.compose d with
      | none => (.fail .ComposeMismatch, { doc with history := ⟨doc.history.undo_stack, rest⟩ })
      | some new_delta =>
          let undo_delta := d.invert_delta doc.data
          (.ok ⟨new_delta.target_len⟩,
            ⟨new_delta, ⟨undo_delta :: doc.history.undo_stack, rest⟩, doc.rev_id_counter⟩)

/-- `Document::to_json` of document.rs. -/
def Document.to_json (doc : Document) : String := doc.data.to_json

/-- `Document::set_data` of document.rs. -/
def Document.set_data (doc : Document) (d : Delta) : Document := { doc with data := d }

/-- The free function `transform(left, right)` of document.rs; `none` models
the panics of its three `unwrap`s. -/
def transform (left right : Document) : Option (Document × Document) :=
  match left.data.transform right.data with
  | none => none
  | some (a_prime, b_prime) =>
      match left.data.compose b_prime, right.data.compose a_prime with
      | some data_left, some data_right =>
          some (left.set_data data_left, right.set_data data_right)
      | _, _ => none

/-- An operation is an insert. -/
def is_insert : Operation → Bool
  | .Insert _ _ => true
  | _ => false

/-- A delta is a document state: it consists solely of inserts (in this client
every document diverged from the empty common ancestor, so its accumulated
delta consumes no input). -/
def Delta.is_state (d : Delta) : Bool := d.ops.all is_insert

/-- A delta is a normalized document state (the form `compose` produces). -/
def Delta.is_normal (d : Delta) : Prop := d = state_of d.flatten

instance Delta.is_normal_decidable (d : Delta) : Decidable d.is_normal :=
  inferInstanceAs (Decidable (d = state_of d.flatten))

/-- The document after an undo request, discarding the result value. -/
def apply_undo (doc : Document) : Document := (doc.undo).2

/-- The document after a redo request, discarding the result value. -/
def apply_redo (doc : Document) : Document := (doc.redo).2

/-- Iterate a document transformation n times. -/
def iter_apply (f : Document → Document) : Nat → Document → Document
  | 0, doc => doc
  | n + 1, doc => iter_apply f n (f doc)

/-- A user-facing mutating request: edit, delete or format. -/
inductive Cmd where
  | edit : Nat → String → Cmd
  | del : Interval → Cmd
  | fmt : Interval → String → Bool → Cmd
  deriving DecidableEq, Repr

/-- Apply one mutating request. -/
def apply_cmd (doc : Document) : Cmd → Option Document
  | .edit i text => doc.edit i text
  | .del iv => doc.delete iv
  | .fmt iv a enable => doc.format iv a enable

/-- Apply a sequence of mutating requests; `none` when any of them panics. -/
def apply_cmds : Document → List Cmd → Option Document
  | doc, [] => some doc
  | doc, c :: cs =>
      match apply_cmd doc c with
      | none => none
      | some d => apply_cmds d cs

/-- The data after popping one redo-stack entry: the composed state on
success, the unchanged state when the composition is rejected. -/
def step_redo_entry (cur r : Delta) : Delta := (cur.compose r).getD cur

/-- `RedoChain entries cur top`: popping the listed redo entries in order,
starting from state `cur`, leads the document data back to `top`. -/
inductive RedoChain : List Delta → Delta → Delta → Prop where
  | nil (d : Delta) : RedoChain [] d d
  | cons (r : Delta) (rs : List Delta) (cur top : Delta) :
      RedoChain rs (step_redo_entry cur r) top → RedoChain (r :: rs) cur top

/-- The document reached by the C8 counterexample: one effective edit on a
fresh document. -/
def c8_doc : Document := (Document.new.edit 0 "x").getD Document.new

/-- A document whose redo stack holds a stale entry: fresh document, one
effective edit, one undo. -/
def c4_mid : Document := apply_undo ((Document.new.edit 0 "x").getD Document.new)

/-- `c4_mid` after a one-edit sequence consisting of a no-op edit. -/
def c4_post : Document := (c4_mid.edit 0 "").getD c4_mid

/-- A fresh document after the one-command sequence [edit 0 "hi"]. -/
def c4w_doc : Document :=
  (apply_cmds Document.new [Cmd.edit 0 "hi"]).getD Document.new

/-- A fresh document after one effective edit (shared concrete test state). -/
def doc_x : Document := (Document.new.edit 0 "x").getD Document.new

/- ------------------------------------------------------------------ -/
/- Basic lemmas about the modelled delta algebra.                      -/
/- ------------------------------------------------------------------ -/

theorem flatten_state_of (cs : List (Char × Attributes)) :
    (state_of cs).flatten = cs := by
  induction cs with
  | nil => rfl
  | cons c cs ih =>
      simpa [state_of, Delta.flatten, Operation.chars] using ih

theorem state_of_target_len (cs : List (Char × Attributes)) :
    (state_of cs).target_len = cs.length := by
  induction cs with
  | nil => rfl
  | cons c cs ih =>
      simp [state_of, Delta.target_len, Operation.target_length] at ih ⊢
      omega

theorem state_of_base_len (cs : List (Char × Attributes)) :
    (state_of cs).base_len = 0 := by
  induction cs with
  | nil => rfl
  | cons c cs ih =>
      simpa [state_of, Delta.base_len, Operation.base_length] using ih

theorem state_of_is_state (cs : List (Char × Attributes)) :
    (state_of cs).is_state = true := by
  induction cs with
  | nil => rfl
  | cons c cs ih =>
      simpa [state_of, Delta.is_state, is_insert] using ih

theorem state_of_is_normal (cs : List (Char × Attributes)) :
    (state_of cs).is_normal := by
  unfold Delta.is_normal
  rw [flatten_state_of]

theorem is_normal_is_state {d : Delta} (h : d.is_normal) : d.is_state = true := by
  rw [h]
  exact state_of_is_state _

theorem is_state_flatten_length {d : Delta} (h : d.is_state = true) :
    d.flatten.length = d.target_len := by
  obtain ⟨ops⟩ := d
  induction ops with
  | nil => rfl
  | cons op rest ih =>
      simp [Delta.is_state] at h ih
      obtain ⟨h1, h2⟩ := h
      cases op with
      | Insert s a =>
          simp [Delta.flatten, Delta.target_len, Operation.chars, Operation.target_length] at *
          exact ih h2
      | Retain n a => simp [is_insert] at h1
      | Delete n => simp [is_insert] at h1

theorem is_state_base_len {d : Delta} (h : d.is_state = true) : d.base_len = 0 := by
  obtain ⟨ops⟩ := d
  induction ops with
  | nil => rfl
  | cons op rest ih =>
      simp [Delta.is_state] at h ih
      obtain ⟨h1, h2⟩ := h
      cases op with
      | Insert s a =>
          simp [Delta.base_len, Operation.base_length] at *
          exact ih h2
      | Retain n a => simp [is_insert] at h1
      | Delete n => simp [is_insert] at h1

theorem apply_ops_insert_only (cs : List (Char × Attributes)) {ops : List Operation}
    (h : ops.all is_insert = true) :
    apply_ops cs ops = (ops.map Operation.chars).flatten := by
  induction ops with
  | nil => rfl
  | cons op rest ih =>
      rw [List.all_cons, Bool.and_eq_true] at h
      obtain ⟨h1, h2⟩ := h
      cases op with
      | Insert s a =>
          simp [apply_ops, Operation.chars, ih h2]
      | Retain n a => simp [is_insert] at h1
      | Delete n => simp [is_insert] at h1

theorem apply_ops_append_insert_only (cs : List (Char × Attributes))
    {ops1 : List Operation} (ops2 : List Operation) (h : ops1.all is_insert = true) :
    apply_ops cs (ops1 ++ ops2) =
      (ops1.map Operation.chars).flatten ++ apply_ops cs ops2 := by
  induction ops1 with
  | nil => rfl
  | cons op rest ih =>
      rw [List.all_cons, Bool.and_eq_true] at h
      obtain ⟨h1, h2⟩ := h
      cases op with
      | Insert s a =>
          simp [apply_ops, Operation.chars, ih h2]
      | Retain n a => simp [is_insert] at h1
      | Delete n => simp [is_insert] at h1

theorem apply_ops_state (cs : List (Char × Attributes)) {d : Delta}
    (h : d.is_state = true) : apply_ops cs d.ops = d.flatten :=
  apply_ops_insert_only cs h

/-- The shape of a successful `update_with_op`. -/
theorem update_with_op_spec (doc : Document) (op : Operation) (iv : Interval)
    (nd : Delta) (hc : doc.data.compose (build_new_delta doc.data op iv) = some nd) :
    doc.update_with_op op iv =
      some ⟨nd,
        if (nd.invert_delta doc.data).is_empty = false
          then doc.history.add_undo (nd.invert_delta doc.data) else doc.history,
        doc.rev_id_counter + 1⟩ := by
  simp only [Document.update_with_op, hc]

/-- Inversion of a successful `update_with_op`. -/
theorem update_with_op_inv {doc : Document} {op : Operation} {iv : Interval}
    {doc' : Document} (h : doc.update_with_op op iv = some doc') :
    doc.data.compose (build_new_delta doc.data op iv) = some doc'.data
    ∧ doc'.history =
        (if (doc'.data.invert_delta doc.data).is_empty = false
          then doc.history.add_undo (doc'.data.invert_delta doc.data) else doc.history)
    ∧ doc'.rev_id_counter = doc.rev_id_counter + 1 := by
  simp only [Document.update_with_op] at h
  cases hc : doc.data.compose (build_new_delta doc.data op iv) with
  | none => rw [hc] at h; exact absurd h (by simp)
  | some nd =>
      rw [hc] at h
      simp only [Option.some.injEq] at h
      subst h
      exact ⟨rfl, rfl, rfl⟩

/- ------------------------------------------------------------------ -/
/- The length bookkeeping of the rebuild step.                         -/
/- ------------------------------------------------------------------ -/

/-- The sub-ranges produced by the split walk tile the queried interval:
their sizes add up to the size of its intersection with the region covered
by the insert operations. -/
theorem split_go_size_sum {ops : List Operation} (h : ops.all is_insert = true)
    (u v s : Nat) :
    ((split_go ⟨u, v⟩ ops s).map Interval.size).sum =
      (Interval.intersect ⟨u, v⟩ ⟨s, s + Delta.target_len ⟨ops⟩⟩).size := by
  induction ops generalizing s with
  | nil =>
      simp only [split_go, List.map_nil, List.sum_nil, Interval.intersect,
        Interval.size, Delta.target_len]
      omega
  | cons op rest ih =>
      rw [List.all_cons, Bool.and_eq_true] at h
      obtain ⟨h1, h2⟩ := h
      cases op with
      | Insert t a =>
          have step : ((split_go ⟨u, v⟩ (.Insert t a :: rest) s).map Interval.size).sum =
              (Interval.intersect ⟨u, v⟩ ⟨s, s + t.length⟩).size +
                ((split_go ⟨u, v⟩ rest (s + t.length)).map Interval.size).sum := by
            simp only [split_go]
            by_cases he : (Interval.intersect ⟨u, v⟩ ⟨s, s + t.length⟩).is_empty = true
            · have hz : (Interval.intersect ⟨u, v⟩ ⟨s, s + t.length⟩).size = 0 := by
                simp only [Interval.is_empty, Interval.intersect, decide_eq_true_eq] at he
                simp only [Interval.intersect, Interval.size]
                omega
              simp [he, hz]
            · simp [he]
          rw [step, ih h2]
          have hT : Delta.target_len ⟨Operation.Insert t a :: rest⟩ =
              t.length + Delta.target_len ⟨rest⟩ := by
            simp [Delta.target_len, Operation.target_length]
          rw [hT]
          simp only [Interval.intersect, Interval.size]
          omega
      | Retain n a => simp [is_insert] at h1
      | Delete n => simp [is_insert] at h1

theorem retain_base_len (d : Delta) (n : Nat) (a : Attributes) :
    (d.retain n a).base_len = d.base_len + n := by
  unfold Delta.retain
  split
  · omega
  · simp [Delta.base_len, Operation.base_length]

theorem insert_base_len (d : Delta) (s : List Char) (a : Attributes) :
    (d.insert s a).base_len = d.base_len := by
  unfold Delta.insert
  split
  · rfl
  · simp [Delta.base_len, Operation.base_length]

theorem delete_base_len (d : Delta) (n : Nat) :
    (d.delete n).base_len = d.base_len + n := by
  unfold Delta.delete
  split
  · omega
  · simp [Delta.base_len, Operation.base_length]

theorem add_base_len (d : Delta) (op : Operation) :
    (d.add op).base_len = d.base_len + op.base_length := by
  cases op with
  | Insert s a => simp [Delta.add, insert_base_len, Operation.base_length]
  | Retain n a => simp [Delta.add, retain_base_len, Operation.base_length]
  | Delete n => simp [Delta.add, delete_base_len, Operation.base_length]

theorem foldl_retain_base_len (l : List Interval) (f : Interval → Attributes)
    (acc : Delta) :
    (l.foldl (fun d i => d.retain i.size (f i)) acc).base_len =
      acc.base_len + (l.map Interval.size).sum := by
  induction l generalizing acc with
  | nil => simp
  | cons i l ih =>
      simp only [List.foldl_cons, List.map_cons, List.sum_cons]
      rw [ih, retain_base_len]
      omega

theorem retain_over_base_len (data : Delta) (iv : Interval) (acc : Delta) :
    (retain_over data iv acc).base_len =
      acc.base_len + ((split_interval_with_delta data iv).map Interval.size).sum :=
  foldl_retain_base_len _ _ _

/-- Declared input length of the rebuilt delta, for a state document: the
covered prefix, the operation itself, and the covered suffix. -/
theorem build_new_delta_base_len {data : Delta} (hst : data.is_state = true)
    (op : Operation) (iv : Interval) :
    (build_new_delta data op iv).base_len =
      min iv.start data.target_len + op.base_length +
        (data.target_len - min iv.stop data.target_len) := by
  have hsplit : ∀ u v : Nat,
      ((split_interval_with_delta data ⟨u, v⟩).map Interval.size).sum =
        (Interval.intersect ⟨u, v⟩ ⟨0, data.target_len⟩).size := by
    intro u v
    obtain ⟨ops⟩ := data
    simpa [split_interval_with_delta] using split_go_size_sum hst u v 0
  have hd0 : (if Interval.is_empty ⟨0, iv.start⟩ = false ∧
        (⟨0, iv.start⟩ : Interval) ≠ iv
      then retain_over data ⟨0, iv.start⟩ Delta.new else Delta.new).base_len =
      min iv.start data.target_len := by
    split
    · rw [retain_over_base_len, hsplit]
      simp only [Delta.new, Delta.base_len, List.map_nil, List.sum_nil,
        Interval.intersect, Interval.size]
      omega
    · next h =>
        have hstart : iv.start = 0 := by
          rcases not_and_or.mp h with h1 | h1
          · simp only [Bool.not_eq_false, Interval.is_empty, decide_eq_true_eq] at h1
            omega
          · have h2 := not_not.mp h1
            have h3 := congrArg Interval.start h2
            simpa using h3.symm
        simp [Delta.new, Delta.base_len, hstart]
  show (if Interval.is_empty ⟨iv.stop, data.target_len⟩ = false
      then retain_over data ⟨iv.stop, data.target_len⟩
        ((if Interval.is_empty ⟨0, iv.start⟩ = false ∧
            (⟨0, iv.start⟩ : Interval) ≠ iv
          then retain_over data ⟨0, iv.start⟩ Delta.new else Delta.new).add op)
      else (if Interval.is_empty ⟨0, iv.start⟩ = false ∧
            (⟨0, iv.start⟩ : Interval) ≠ iv
          then retain_over data ⟨0, iv.start⟩ Delta.new else Delta.new).add op).base_len
    = min iv.start data.target_len + op.base_length +
        (data.target_len - min iv.stop data.target_len)
  split
  · next hsuf =>
      rw [retain_over_base_len, add_base_len, hd0, hsplit]
      simp only [Interval.is_empty, decide_eq_false_iff_not, not_le] at hsuf
      simp only [Interval.intersect, Interval.size]
      omega
  · next hsuf =>
      rw [add_base_len, hd0]
      simp only [Bool.not_eq_false, Interval.is_empty, decide_eq_true_eq] at hsuf
      omega

theorem update_with_op_isSome {doc : Document} {op : Operation} {iv : Interval}
    (hb : (build_new_delta doc.data op iv).base_len = doc.data.target_len) :
    (doc.update_with_op op iv).isSome := by
  have hc : doc.data.compose (build_new_delta doc.data op iv) =
      some (state_of (apply_ops doc.data.flatten (build_new_delta doc.data op iv).ops)) := by
    simp [Delta.compose, hb]
  rw [update_with_op_spec doc op iv _ hc]
  rfl

theorem edit_isSome (doc : Document) (hst : doc.data.is_state = true)
    (index : Nat) (text : String) : (doc.edit index text).isSome := by
  show (doc.update_with_op (.Insert text.data (doc.edit_attributes index))
    ⟨index, index⟩).isSome
  apply update_with_op_isSome
  rw [build_new_delta_base_len hst]
  simp only [Operation.base_length]
  omega

theorem delete_isSome (doc : Document) (hst : doc.data.is_state = true)
    {iv : Interval} (h1 : iv.start ≤ iv.stop) (h2 : iv.stop ≤ doc.data.target_len) :
    (doc.delete iv).isSome := by
  show (doc.update_with_op (.Delete iv.size) iv).isSome
  apply update_with_op_isSome
  rw [build_new_delta_base_len hst]
  simp only [Operation.base_length, Interval.size]
  omega

theorem update_with_attribute_isSome (doc : Document) (hst : doc.data.is_state = true)
    (attrs : Attributes) {iv : Interval} (h1 : iv.start ≤ iv.stop)
    (h2 : iv.stop ≤ doc.data.target_len) :
    (doc.update_with_attribute attrs iv).isSome := by
  show (doc.update_with_op
    (.Retain iv.size (match attrs with
      | .Follow => doc.data.get_attributes iv
      | .Custom attr_d => .Custom (merge_data attr_d (attr_data (doc.data.get_attributes iv)))
      | .Empty => .Empty)) iv).isSome
  apply update_with_op_isSome
  rw [build_new_delta_base_len hst]
  simp only [Operation.base_length, Interval.size]
  omega

theorem format_isSome (doc : Document) (hst : doc.data.is_state = true)
    {iv : Interval} (a : String) (enable : Bool) (h1 : iv.start ≤ iv.stop)
    (h2 : iv.stop ≤ doc.data.target_len) : (doc.format iv a enable).isSome :=
  update_with_attribute_isSome doc hst _ h1 h2

/- ------------------------------------------------------------------ -/
/- Lookup lemmas for the attribute merge.                              -/
/- ------------------------------------------------------------------ -/

theorem lookup_mem_isSome {k : String} {v : Bool} {d : List (String × Bool)}
    (h : (k, v) ∈ d) : (List.lookup k d).isSome := by
  induction d with
  | nil => simp at h
  | cons a d ih =>
      obtain ⟨k', v'⟩ := a
      by_cases hk : (k == k') = true
      · simp [List.lookup, hk]
      · rcases List.mem_cons.mp h with h1 | h1
        · cases h1
          simp at hk
        · simp only [List.lookup, hk]
          exact ih h1

theorem lookup_append_left {k : String} {l1 : List (String × Bool)}
    (l2 : List (String × Bool)) (h : (List.lookup k l1).isSome) :
    List.lookup k (l1 ++ l2) = List.lookup k l1 := by
  induction l1 with
  | nil => simp [List.lookup] at h
  | cons a l1 ih =>
      obtain ⟨k', v'⟩ := a
      by_cases hk : (k == k') = true
      · simp [List.lookup, hk]
      · simp only [List.lookup, hk, List.cons_append] at h ⊢
        exact ih h

theorem merge_data_no_overwrite {d other : List (String × Bool)} (k : String)
    (v : Bool) (h : (k, v) ∈ d) :
    List.lookup k (merge_data d other) = List.lookup k d :=
  lookup_append_left _ (lookup_mem_isSome h)

/- ------------------------------------------------------------------ -/
/- Shape lemmas for undo and redo.                                     -/
/- ------------------------------------------------------------------ -/

theorem undo_empty (doc : Document) (hs : doc.history.undo_stack = []) :
    doc.undo = (.fail .UndoFail, doc) := by
  simp [Document.undo, hs]

theorem undo_cons_none (doc : Document) (d : Delta) (rest : List Delta)
    (hs : doc.history.undo_stack = d :: rest) (hc : doc.data.compose d = none) :
    doc.undo = (.fail .ComposeMismatch,
      { doc with history := ⟨rest, doc.history.redo_stack⟩ }) := by
  simp [Document.undo, hs, hc]

theorem undo_cons_some (doc : Document) (d : Delta) (rest : List Delta) (nd : Delta)
    (hs : doc.history.undo_stack = d :: rest) (hc : doc.data.compose d = some nd) :
    doc.undo = (.ok ⟨nd.target_len⟩,
      ⟨nd, ⟨rest, (d.invert_delta doc.data) :: doc.history.redo_stack⟩,
        doc.rev_id_counter⟩) := by
  simp [Document.undo, hs, hc]

theorem redo_empty (doc : Document) (hs : doc.history.redo_stack = []) :
    doc.redo = (.fail .RedoFail, doc) := by
  simp [Document.redo, hs]

theorem redo_cons_none (doc : Document) (d : Delta) (rest : List Delta)
    (hs : doc.history.redo_stack = d :: rest) (hc : doc.data.compose d = none) :
    doc.redo = (.fail .ComposeMismatch,
      { doc with history := ⟨doc.history.undo_stack, rest⟩ }) := by
  simp [Document.redo, hs, hc]

theorem redo_cons_some (doc : Document) (d : Delta) (rest : List Delta) (nd : Delta)
    (hs : doc.history.redo_stack = d :: rest) (hc : doc.data.compose d = some nd) :
    doc.redo = (.ok ⟨nd.target_len⟩,
      ⟨nd, ⟨(d.invert_delta doc.data) :: doc.history.undo_stack, rest⟩,
        doc.rev_id_counter⟩) := by
  simp [Document.redo, hs, hc]

theorem map_restyle_empty (cs : List (Char × Attributes)) :
    cs.map (Attributes.restyle .Empty) = cs := by
  induction cs with
  | nil => rfl
  | cons c cs ih => simp [Attributes.restyle, ih]

theorem base_len_cons (op : Operation) (ops : List Operation) :
    Delta.base_len ⟨op :: ops⟩ = op.base_length + Delta.base_len ⟨ops⟩ := by
  simp [Delta.base_len]

theorem base_len_append (ops1 ops2 : List Operation) :
    Delta.base_len ⟨ops1 ++ ops2⟩ = Delta.base_len ⟨ops1⟩ + Delta.base_len ⟨ops2⟩ := by
  simp [Delta.base_len]

theorem apply_ops_retain_all (cs : List (Char × Attributes)) (n : Nat)
    (h : cs.length = n) : apply_ops cs [.Retain n .Empty] = cs := by
  show (cs.take n).map (Attributes.restyle .Empty) ++ apply_ops (cs.drop n) [] = cs
  rw [← h, List.take_length, List.drop_length, map_restyle_empty]
  simp [apply_ops]

/- ------------------------------------------------------------------ -/
/- The undo/redo inverse law.                                          -/
/- ------------------------------------------------------------------ -/

theorem compose_some_state {a b nd : Delta} (hc : a.compose b = some nd) :
    nd = state_of (apply_ops a.flatten b.ops) := by
  unfold Delta.compose at hc
  by_cases hg : a.target_len = b.base_len
  · rw [if_pos hg] at hc
    simpa using hc.symm
  · rw [if_neg hg] at hc
    exact absurd hc (by simp)

theorem compose_some_is_normal {a b nd : Delta} (hc : a.compose b = some nd) :
    nd.is_normal := by
  rw [compose_some_state hc]
  exact state_of_is_normal _

/-- Popping the inverse that a successful undo pushed onto the redo stack
brings the data back to the pre-undo state. -/
theorem step_redo_invert {base D nd : Delta} (hbn : base.is_normal)
    (hc : base.compose D = some nd) :
    step_redo_entry nd (D.invert_delta base) = base := by
  have hnd := compose_some_state hc
  subst hnd
  set X := apply_ops base.flatten D.ops with hXdef
  have hinv : D.invert_delta base = diff_delta X base.flatten := by
    rw [hXdef]
    rfl
  rw [hinv]
  by_cases hXY : X = base.flatten
  · unfold diff_delta
    rw [if_pos hXY]
    unfold step_redo_entry Delta.compose
    by_cases hX0 : X = []
    · have hguard : (state_of X).target_len = Delta.base_len ⟨[]⟩ := by
        simp [state_of_target_len, hX0, Delta.base_len]
      rw [if_pos hguard]
      show (state_of (apply_ops (state_of X).flatten [])) = base
      have h1 : apply_ops (state_of X).flatten ([] : List Operation) = [] := rfl
      rw [h1]
      have h2 : base.flatten = [] := hXY ▸ hX0
      rw [hbn, h2]
    · have hguard : ¬((state_of X).target_len = Delta.base_len ⟨[]⟩) := by
        simp only [state_of_target_len, Delta.base_len, List.map_nil, List.sum_nil]
        exact fun hcon => hX0 (List.length_eq_zero.mp hcon)
      rw [if_neg hguard]
      show state_of X = base
      rw [hXY]
      exact hbn.symm
  · unfold diff_delta
    rw [if_neg hXY]
    unfold step_redo_entry Delta.compose
    have hRbase : Delta.base_len
        ⟨(if X = [] then [] else [.Delete X.length]) ++ (state_of base.flatten).ops⟩
        = X.length := by
      rw [base_len_append, state_of_base_len]
      by_cases hX0 : X = []
      · simp [hX0, Delta.base_len]
      · simp [hX0, Delta.base_len, Operation.base_length]
    have hguard : (state_of X).target_len = Delta.base_len
        ⟨(if X = [] then [] else [.Delete X.length]) ++ (state_of base.flatten).ops⟩ := by
      rw [state_of_target_len, hRbase]
    rw [if_pos hguard]
    have happ : apply_ops (state_of X).flatten
        ((if X = [] then [] else [.Delete X.length]) ++ (state_of base.flatten).ops)
        = base.flatten := by
      rw [flatten_state_of]
      by_cases hX0 : X = []
      · rw [if_pos hX0, List.nil_append,
          apply_ops_state X (state_of_is_state base.flatten), flatten_state_of]
      · rw [if_neg hX0]
        show apply_ops (X.drop X.length) (state_of base.flatten).ops = base.flatten
        rw [List.drop_length, apply_ops_state [] (state_of_is_state base.flatten),
          flatten_state_of]
    show state_of (apply_ops (state_of X).flatten _) = base
    rw [happ]
    exact hbn.symm

theorem RedoChain.append {xs ys : List Delta} {a b c : Delta}
    (h1 : RedoChain xs a b) (h2 : RedoChain ys b c) : RedoChain (xs ++ ys) a c := by
  induction h1 with
  | nil d => simpa using h2
  | cons r rs cur top h ih => exact .cons r _ _ _ (ih h2)

/-- The undo phase: n undo requests pop at most n entries and push onto the
redo stack a chain of entries that leads the data back to where it started. -/
theorem undo_phase (n : Nat) (doc : Document) (hbn : doc.data.is_normal) :
    ∃ pushed : List Delta,
      pushed.length ≤ n
      ∧ (iter_apply apply_undo n doc).history.redo_stack =
          pushed ++ doc.history.redo_stack
      ∧ (iter_apply apply_undo n doc).data.is_normal
      ∧ RedoChain pushed (iter_apply apply_undo n doc).data doc.data := by
  induction n generalizing doc with
  | zero => exact ⟨[], by simp, by simp [iter_apply], hbn, .nil _⟩
  | succ n ih =>
      cases hs : doc.history.undo_stack with
      | nil =>
          have hstep : apply_undo doc = doc := by
            unfold apply_undo
            rw [undo_empty doc hs]
          have hiter : iter_apply apply_undo (n + 1) doc = iter_apply apply_undo n doc := by
            show iter_apply apply_undo n (apply_undo doc) = _
            rw [hstep]
          rw [hiter]
          obtain ⟨pushed, h1, h2, h3, h4⟩ := ih doc hbn
          exact ⟨pushed, Nat.le_succ_of_le h1, h2, h3, h4⟩
      | cons D rest =>
          cases hc : doc.data.compose D with
          | none =>
              have hstep : apply_undo doc =
                  { doc with history := ⟨rest, doc.history.redo_stack⟩ } := by
                unfold apply_undo
                rw [undo_cons_none doc D rest hs hc]
              have hiter : iter_apply apply_undo (n + 1) doc =
                  iter_apply apply_undo n { doc with history := ⟨rest, doc.history.redo_stack⟩ } := by
                show iter_apply apply_undo n (apply_undo doc) = _
                rw [hstep]
              rw [hiter]
              obtain ⟨pushed, h1, h2, h3, h4⟩ :=
                ih { doc with history := ⟨rest, doc.history.redo_stack⟩ } hbn
              exact ⟨pushed, Nat.le_succ_of_le h1, h2, h3, h4⟩
          | some nd =>
              have hstep : apply_undo doc =
                  ⟨nd, ⟨rest, (D.invert_delta doc.data) :: doc.history.redo_stack⟩,
                    doc.rev_id_counter⟩ := by
                unfold apply_undo
                rw [undo_cons_some doc D rest nd hs hc]
              have hbn1 : (⟨nd, ⟨rest, (D.invert_delta doc.data) :: doc.history.redo_stack⟩,
                  doc.rev_id_counter⟩ : Document).data.is_normal :=
                compose_some_is_normal hc
              have hiter : iter_apply apply_undo (n + 1) doc =
                  iter_apply apply_undo n
                    ⟨nd, ⟨rest, (D.invert_delta doc.data) :: doc.history.redo_stack⟩,
                      doc.rev_id_counter⟩ := by
                show iter_apply apply_undo n (apply_undo doc) = _
                rw [hstep]
              rw [hiter]
              obtain ⟨pushed, h1, h2, h3, h4⟩ := ih _ hbn1
              refine ⟨pushed ++ [D.invert_delta doc.data], ?_, ?_, h3, ?_⟩
              · simp only [List.length_append, List.length_cons, List.length_nil]
                omega
              · rw [h2]
                simp
              · refine RedoChain.append h4 (.cons _ [] nd doc.data ?_)
                rw [step_redo_invert hbn hc]
                exact .nil _

/-- The redo phase: with the redo stack holding exactly the pushed chain, at
least as many redo requests as entries replay the chain and restore the
data to the chain's top. -/
theorem redo_phase (pushed : List Delta) (n : Nat) (docu : Document) (top : Delta)
    (hch : RedoChain pushed docu.data top)
    (hrs : docu.history.redo_stack = pushed)
    (hn : pushed.length ≤ n) :
    (iter_apply apply_redo n docu).data = top := by
  induction pushed generalizing n docu with
  | nil =>
      cases hch
      have hid : ∀ (m : Nat) (d : Document), d.history.redo_stack = [] →
          iter_apply apply_redo m d = d := by
        intro m
        induction m with
        | zero => intro d _; rfl
        | succ m ihm =>
            intro d hd
            have hstep : apply_redo d = d := by
              unfold apply_redo
              rw [redo_empty d hd]
            show iter_apply apply_redo m (apply_redo d) = d
            rw [hstep]
            exact ihm d hd
      rw [hid n docu hrs]
  | cons r rs ihp =>
      cases hch with
      | cons _ _ _ _ htail =>
          cases n with
          | zero => simp at hn
          | succ n =>
              cases hcr : docu.data.compose r with
              | none =>
                  have hstepval : step_redo_entry docu.data r = docu.data := by
                    unfold step_redo_entry
                    rw [hcr]
                    rfl
                  rw [hstepval] at htail
                  have hstep : apply_redo docu =
                      { docu with history := ⟨docu.history.undo_stack, rs⟩ } := by
                    unfold apply_redo
                    rw [redo_cons_none docu r rs hrs hcr]
                  show (iter_apply apply_redo n (apply_redo docu)).data = top
                  rw [hstep]
                  refine ihp n _ htail rfl ?_
                  simpa using Nat.le_of_succ_le_succ hn
              | some nd =>
                  have hstepval : step_redo_entry docu.data r = nd := by
                    unfold step_redo_entry
                    rw [hcr]
                    rfl
                  rw [hstepval] at htail
                  have hstep : apply_redo docu =
                      ⟨nd, ⟨(r.invert_delta docu.data) :: docu.history.undo_stack, rs⟩,
                        docu.rev_id_counter⟩ := by
                    unfold apply_redo
                    rw [redo_cons_some docu r rs nd hrs hcr]
                  show (iter_apply apply_redo n (apply_redo docu)).data = top
                  rw [hstep]
                  refine ihp n _ htail rfl ?_
                  simpa using Nat.le_of_succ_le_succ hn

theorem update_with_op_preserves {doc doc' : Document} {op : Operation}
    {iv : Interval} (h : doc.update_with_op op iv = some doc') :
    doc'.data.is_normal ∧ doc'.history.redo_stack = doc.history.redo_stack := by
  obtain ⟨hc, hh, _⟩ := update_with_op_inv h
  constructor
  · exact compose_some_is_normal hc
  · rw [hh]
    split <;> simp [History.add_undo]

theorem apply_cmd_preserves {doc doc' : Document} {c : Cmd}
    (h : apply_cmd doc c = some doc') :
    doc'.data.is_normal ∧ doc'.history.redo_stack = doc.history.redo_stack := by
  cases c with
  | edit i t =>
      have h' : doc.update_with_op (.Insert t.data (doc.edit_attributes i)) ⟨i, i⟩
          = some doc' := h
      exact update_with_op_preserves h'
  | del iv =>
      have h' : doc.update_with_op (.Delete iv.size) iv = some doc' := h
      exact update_with_op_preserves h'
  | fmt iv a enable =>
      have h' : doc.update_with_op
          (.Retain iv.size
            (match (.Custom [(a, enable)] : Attributes) with
              | .Follow => doc.data.get_attributes iv
              | .Custom attr_d =>
                  .Custom (merge_data attr_d (attr_data (doc.data.get_attributes iv)))
              | .Empty => .Empty)) iv = some doc' := h
      exact update_with_op_preserves h'

theorem apply_cmds_preserves {doc doc' : Document} {cs : List Cmd}
    (h : apply_cmds doc cs = some doc') (hbn : doc.data.is_normal) :
    doc'.data.is_normal ∧ doc'.history.redo_stack = doc.history.redo_stack := by
  induction cs generalizing doc with
  | nil =>
      unfold apply_cmds at h
      simp only [Option.some.injEq] at h
      subst h
      exact ⟨hbn, rfl⟩
  | cons c cs ih =>
      unfold apply_cmds at h
      cases hc : apply_cmd doc c with
      | none => rw [hc] at h; exact absurd h (by simp)
      | some d1 =>
          rw [hc] at h
          obtain ⟨hb1, hr1⟩ := apply_cmd_preserves hc
          obtain ⟨hb2, hr2⟩ := ih h hb1
          exact ⟨hb2, hr2.trans hr1⟩

/- ------------------------------------------------------------------ -/
/- Convergence of the transform procedure on state documents.          -/
/- ------------------------------------------------------------------ -/

theorem transform_state (A B : Delta) (hl : A.is_state = true)
    (hr : B.is_state = true) :
    A.transform B = some (⟨A.ops ++ [.Retain B.target_len .Empty]⟩,
      ⟨.Retain A.target_len .Empty :: B.ops⟩) := by
  simp [Delta.transform, is_state_base_len hl, is_state_base_len hr]

theorem compose_transformed_right (A B : Delta) (hl : A.is_state = true)
    (hr : B.is_state = true) :
    A.compose ⟨.Retain A.target_len .Empty :: B.ops⟩ =
      some (state_of (A.flatten ++ B.flatten)) := by
  have hbP : (⟨.Retain A.target_len .Empty :: B.ops⟩ : Delta).base_len
      = A.target_len := by
    rw [base_len_cons, is_state_base_len hr]
    simp [Operation.base_length]
  have happly : apply_ops A.flatten (.Retain A.target_len .Empty :: B.ops)
      = A.flatten ++ B.flatten := by
    show (A.flatten.take A.target_len).map (Attributes.restyle .Empty) ++
        apply_ops (A.flatten.drop A.target_len) B.ops = A.flatten ++ B.flatten
    rw [← is_state_flatten_length hl, List.take_length, List.drop_length,
      map_restyle_empty, apply_ops_state [] hr]
  unfold Delta.compose
  rw [hbP, if_pos rfl, happly]

theorem compose_transformed_left (A B : Delta) (hl : A.is_state = true)
    (hr : B.is_state = true) :
    B.compose ⟨A.ops ++ [.Retain B.target_len .Empty]⟩ =
      some (state_of (A.flatten ++ B.flatten)) := by
  have haP : (⟨A.ops ++ [.Retain B.target_len .Empty]⟩ : Delta).base_len
      = B.target_len := by
    rw [base_len_append, is_state_base_len hl]
    simp [Delta.base_len, Operation.base_length]
  have happly : apply_ops B.flatten (A.ops ++ [.Retain B.target_len .Empty])
      = A.flatten ++ B.flatten := by
    rw [apply_ops_append_insert_only B.flatten _ hl,
      apply_ops_retain_all B.flatten B.target_len (is_state_flatten_length hr)]
    rfl
  unfold Delta.compose
  rw [haP, if_pos rfl, happly]

/- ------------------------------------------------------------------ -/
/- Behavior of an edit on the fresh empty document.                    -/
/- ------------------------------------------------------------------ -/

theorem retain_over_empty (iv : Interval) (acc : Delta) :
    retain_over ⟨[]⟩ iv acc = acc := rfl

theorem build_new_delta_on_empty (op : Operation) (iv : Interval) :
    build_new_delta ⟨[]⟩ op iv = Delta.new.add op := by
  show (if Interval.is_empty ⟨iv.stop, Delta.target_len ⟨[]⟩⟩ = false
      then retain_over ⟨[]⟩ ⟨iv.stop, Delta.target_len ⟨[]⟩⟩
        ((if Interval.is_empty ⟨0, iv.start⟩ = false ∧ (⟨0, iv.start⟩ : Interval) ≠ iv
          then retain_over ⟨[]⟩ ⟨0, iv.start⟩ Delta.new else Delta.new).add op)
      else (if Interval.is_empty ⟨0, iv.start⟩ = false ∧ (⟨0, iv.start⟩ : Interval) ≠ iv
          then retain_over ⟨[]⟩ ⟨0, iv.start⟩ Delta.new else Delta.new).add op)
    = Delta.new.add op
  split
  · rw [retain_over_empty]
    split
    · rw [retain_over_empty]
    · rfl
  · split
    · rw [retain_over_empty]
    · rfl

theorem edit_fresh (i : Nat) (text : String) (htext : text.data ≠ []) :
    Document.new.edit i text =
      some ⟨state_of (text.data.map (fun c => (c, Attributes.Follow))),
        ⟨[⟨[.Delete text.data.length]⟩], []⟩, 2⟩ := by
  set X := text.data.map (fun c => (c, Attributes.Follow)) with hX
  have hXne : X ≠ [] := by simpa [hX] using htext
  have hXlen : X.length = text.data.length := by simp [hX]
  have hattr : Document.new.edit_attributes i = .Follow := by
    simp [Document.edit_attributes, Delta.get_attributes, Document.new, Delta.new,
      Delta.flatten]
  have hb : build_new_delta Document.new.data (.Insert text.data .Follow) ⟨i, i⟩
      = ⟨[.Insert text.data .Follow]⟩ := by
    rw [show Document.new.data = (⟨[]⟩ : Delta) from rfl, build_new_delta_on_empty]
    simp [Delta.add, Delta.insert, htext, Delta.new]
  have hcomp : Document.new.data.compose ⟨[.Insert text.data .Follow]⟩
      = some (state_of X) := by
    simp [Delta.compose, Delta.target_len, Delta.base_len, Operation.base_length,
      Document.new, Delta.new, apply_ops, hX]
  have hc : Document.new.data.compose
      (build_new_delta Document.new.data (.Insert text.data .Follow) ⟨i, i⟩)
      = some (state_of X) := by
    rw [hb]
    exact hcomp
  have hinv : (state_of X).invert_delta Document.new.data
      = ⟨[.Delete text.data.length]⟩ := by
    unfold Delta.invert_delta
    have h1 : apply_ops (Delta.flatten Document.new.data) (state_of X).ops = X := by
      rw [apply_ops_state _ (state_of_is_state X), flatten_state_of]
    rw [h1]
    show diff_delta X (Delta.flatten ⟨[]⟩) = _
    unfold diff_delta
    simp [Delta.flatten, hXne, state_of, hXlen]
  have hspec := update_with_op_spec Document.new (.Insert text.data .Follow) ⟨i, i⟩
    (state_of X) hc
  rw [hinv] at hspec
  show Document.new.update_with_op (.Insert text.data (Document.new.edit_attributes i))
    ⟨i, i⟩ = _
  rw [hattr, hspec]
  simp [Delta.is_empty, History.add_undo, History.new, Document.new]

/- ------------------------------------------------------------------ -/
/- Claim theorems.                                                     -/
/- ------------------------------------------------------------------ -/

/-- C5: for every edit(position, text), the attributes stamped on the
inserted text come from the lookup over the single-position probe interval
[position, position+1), with Empty defaulting to Follow (inherit
surrounding); in particular inserting with no explicit attributes inside a
run carrying {bold} yields content whose attributes resolve to {bold}. -/
theorem C5_insertion_formatting_inheritance :
    (∀ (doc : Document) (index : Nat) (text : String),
        doc.edit index text =
          doc.update_with_op
            (.Insert text.data
              (if doc.data.get_attributes ⟨index, index + 1⟩ = .Empty then .Follow
               else doc.data.get_attributes ⟨index, index + 1⟩))
            ⟨index, index⟩)
    ∧ ((Document.edit
          ⟨state_of [('a', .Custom [("bold", true)]), ('b', .Custom [("bold", true)])],
            History.new, 1⟩ 1 "x").map (fun d => d.data.flatten)
        = some [('a', .Custom [("bold", true)]), ('x', .Custom [("bold", true)]),
            ('b', .Custom [("bold", true)])]) :=
  ⟨fun _ _ _ => rfl, by decide⟩

/-- C6: update_with_attribute replaces a Follow request wholesale by the
looked-up attributes, merges the looked-up entries into a Custom request
without overwriting entries already present (so the requested changes win),
treats an Empty lookup as a no-op merge, and applies a Retain over the
interval carrying the merged attributes. -/
theorem C6_attribute_merge_policy :
    (∀ (doc : Document) (iv : Interval),
        doc.update_with_attribute .Follow iv =
          doc.update_with_op (.Retain iv.size (doc.data.get_attributes iv)) iv)
    ∧ (∀ (doc : Document) (d : List (String × Bool)) (iv : Interval),
        doc.update_with_attribute (.Custom d) iv =
          doc.update_with_op
            (.Retain iv.size
              (.Custom (merge_data d (attr_data (doc.data.get_attributes iv))))) iv)
    ∧ (∀ (d other : List (String × Bool)) (k : String) (v : Bool), (k, v) ∈ d →
        List.lookup k (merge_data d other) = List.lookup k d)
    ∧ (∀ (doc : Document) (d : List (String × Bool)) (iv : Interval),
        doc.data.get_attributes iv = .Empty →
          doc.update_with_attribute (.Custom d) iv =
            doc.update_with_op (.Retain iv.size (.Custom d)) iv) := by
  refine ⟨fun doc iv => rfl, fun doc d iv => rfl,
    fun d other k v h => merge_data_no_overwrite k v h, fun doc d iv h => ?_⟩
  show doc.update_with_op
    (.Retain iv.size (.Custom (merge_data d (attr_data (doc.data.get_attributes iv))))) iv
    = doc.update_with_op (.Retain iv.size (.Custom d)) iv
  rw [h]
  simp [attr_data, merge_data]

/-- C6 witness: concrete instances discharging the hypotheses of the merge
policy theorem. -/
theorem C6_attribute_merge_policy_witness :
    List.lookup "a" (merge_data [("a", true)] [("a", false), ("b", false)]) =
      List.lookup "a" [("a", true)]
    ∧ Document.new.update_with_attribute (.Custom [("b", true)]) ⟨0, 0⟩ =
        Document.new.update_with_op (.Retain 0 (.Custom [("b", true)])) ⟨0, 0⟩ :=
  ⟨C6_attribute_merge_policy.2.2.1 [("a", true)] [("a", false), ("b", false)] "a" true
      (by decide),
    C6_attribute_merge_policy.2.2.2 Document.new [("b", true)] ⟨0, 0⟩ (by decide)⟩

/-- C7: for an index strictly beyond the current document length, edit
neither clamps nor fails: it runs exactly the same rebuild-and-compose step
as any other edit, and (on a state document) that step succeeds. -/
theorem C7_out_of_bounds_edit (doc : Document) (index : Nat) (text : String)
    (_h : doc.data.target_len < index) :
    doc.edit index text =
      doc.update_with_op (.Insert text.data (doc.edit_attributes index))
        ⟨index, index⟩
    ∧ (doc.data.is_state = true → (doc.edit index text).isSome) :=
  ⟨rfl, fun hst => edit_isSome doc hst index text⟩

/-- C7 witness: an edit at index 3 of the empty fresh document. -/
theorem C7_out_of_bounds_edit_witness :
    (Document.new.edit 3 "a" =
      Document.new.update_with_op (.Insert "a".data (Document.new.edit_attributes 3))
        ⟨3, 3⟩)
    ∧ (Document.new.edit 3 "a").isSome :=
  ⟨(C7_out_of_bounds_edit Document.new 3 "a" (by decide)).1,
    (C7_out_of_bounds_edit Document.new 3 "a" (by decide)).2 (by decide)⟩

/-- C2 counterexample: a delete whose interval exceeds the current document
length produces a result delta whose declared input length (2) differs from
the document length (0), the composition fails, and the unwrap panics
(modelled by `none`) — so the claim's "never fails" does not hold for every
delete call. -/
theorem C2_counterexample_out_of_range_delete :
    Document.new.delete ⟨0, 2⟩ = none := by decide

/-- C2 (amended): for a state document, the rebuilt delta's declared input
length equals the pre-edit document length — for edit at any position, and
for delete/format whenever the interval is well-formed and lies within the
document — and consequently the composition succeeds and the unwrap cannot
panic. -/
theorem C2_length_invariant_amended (doc : Document)
    (hst : doc.data.is_state = true) :
    (∀ (index : Nat) (text : String),
        (build_new_delta doc.data (.Insert text.data (doc.edit_attributes index))
            ⟨index, index⟩).base_len = doc.data.target_len
        ∧ (doc.edit index text).isSome)
    ∧ (∀ iv : Interval, iv.start ≤ iv.stop → iv.stop ≤ doc.data.target_len →
        (build_new_delta doc.data (.Delete iv.size) iv).base_len = doc.data.target_len
        ∧ (doc.delete iv).isSome)
    ∧ (∀ (iv : Interval) (a : String) (enable : Bool),
        iv.start ≤ iv.stop → iv.stop ≤ doc.data.target_len →
        (doc.format iv a enable).isSome) := by
  refine ⟨fun index text => ⟨?_, edit_isSome doc hst index text⟩,
    fun iv h1 h2 => ⟨?_, delete_isSome doc hst h1 h2⟩,
    fun iv a enable h1 h2 => format_isSome doc hst a enable h1 h2⟩
  · rw [build_new_delta_base_len hst]
    simp only [Operation.base_length]
    omega
  · rw [build_new_delta_base_len hst]
    simp only [Operation.base_length, Interval.size]
    omega

/-- C2 witness: the amended invariant at a concrete document. -/
theorem C2_length_invariant_witness :
    (Document.new.edit 0 "hi").isSome ∧ (Document.new.delete ⟨0, 0⟩).isSome :=
  ⟨((C2_length_invariant_amended Document.new (by decide)).1 0 "hi").2,
    ((C2_length_invariant_amended Document.new (by decide)).2.1 ⟨0, 0⟩ (by decide)
      (by decide)).2⟩

/-- C10: a successful rebuild step never modifies the redo stack, and pushes
onto the undo stack exactly when the computed inverse is non-empty; hence
edit, delete and format leave redo entries intact. -/
theorem C10_edits_never_touch_redo :
    (∀ (doc : Document) (op : Operation) (iv : Interval) (doc' : Document),
        doc.update_with_op op iv = some doc' →
          doc'.history.redo_stack = doc.history.redo_stack
          ∧ doc'.history.undo_stack =
              (if (doc'.data.invert_delta doc.data).is_empty = false
                then (doc'.data.invert_delta doc.data) :: doc.history.undo_stack
                else doc.history.undo_stack))
    ∧ (∀ (doc : Document) (i : Nat) (t : String) (doc' : Document),
        doc.edit i t = some doc' →
          doc'.history.redo_stack = doc.history.redo_stack)
    ∧ (∀ (doc : Document) (iv : Interval) (doc' : Document),
        doc.delete iv = some doc' →
          doc'.history.redo_stack = doc.history.redo_stack)
    ∧ (∀ (doc : Document) (iv : Interval) (a : String) (enable : Bool)
        (doc' : Document),
        doc.format iv a enable = some doc' →
          doc'.history.redo_stack = doc.history.redo_stack) := by
  have main : ∀ (doc : Document) (op : Operation) (iv : Interval) (doc' : Document),
      doc.update_with_op op iv = some doc' →
        doc'.history.redo_stack = doc.history.redo_stack
        ∧ doc'.history.undo_stack =
            (if (doc'.data.invert_delta doc.data).is_empty = false
              then (doc'.data.invert_delta doc.data) :: doc.history.undo_stack
              else doc.history.undo_stack) := by
    intro doc op iv doc' h
    obtain ⟨hc, hh, hr⟩ := update_with_op_inv h
    by_cases hE : (doc'.data.invert_delta doc.data).is_empty = false
    · rw [hh]
      simp [hE, History.add_undo]
    · rw [hh]
      simp [hE, History.add_undo]
  exact ⟨main, fun doc i t doc' h => (main doc _ _ doc' h).1,
    fun doc iv doc' h => (main doc _ _ doc' h).1,
    fun doc iv a enable doc' h => (main doc _ _ doc' h).1⟩

/-- C10 witness: a concrete edit leaving the redo stack untouched. -/
theorem C10_edits_never_touch_redo_witness :
    doc_x.history.redo_stack = Document.new.history.redo_stack := by
  have hed : Document.new.edit 0 "x" = some doc_x := by decide
  exact C10_edits_never_touch_redo.2.1 Document.new 0 "x" doc_x hed

/-- C3: undo returns UndoFail iff the undo stack is empty (and redo, RedoFail
iff the redo stack is empty); on any error path the current delta and the
revision counter are unchanged; on success the popped delta D is composed
into the state, the delta reversing D is cross-pushed onto the other stack,
and the result carries the resulting document length. -/
theorem C3_undo_redo_error_contract (doc : Document) :
    ((doc.undo).1 = .fail .UndoFail ↔ doc.history.undo_stack = [])
    ∧ ((doc.redo).1 = .fail .RedoFail ↔ doc.history.redo_stack = [])
    ∧ (∀ e, (doc.undo).1 = .fail e →
        (doc.undo).2.data = doc.data
        ∧ (doc.undo).2.rev_id_counter = doc.rev_id_counter)
    ∧ (∀ e, (doc.redo).1 = .fail e →
        (doc.redo).2.data = doc.data
        ∧ (doc.redo).2.rev_id_counter = doc.rev_id_counter)
    ∧ (∀ (d : Delta) (rest : List Delta) (nd : Delta),
        doc.history.undo_stack = d :: rest → doc.data.compose d = some nd →
          doc.undo = (.ok ⟨nd.target_len⟩,
            ⟨nd, ⟨rest, (d.invert_delta doc.data) :: doc.history.redo_stack⟩,
              doc.rev_id_counter⟩))
    ∧ (∀ (d : Delta) (rest : List Delta) (nd : Delta),
        doc.history.redo_stack = d :: rest → doc.data.compose d = some nd →
          doc.redo = (.ok ⟨nd.target_len⟩,
            ⟨nd, ⟨(d.invert_delta doc.data) :: doc.history.undo_stack, rest⟩,
              doc.rev_id_counter⟩)) := by
  refine ⟨⟨?_, ?_⟩, ⟨?_, ?_⟩, ?_, ?_, fun d rest nd hs hc => undo_cons_some doc d rest nd hs hc,
    fun d rest nd hs hc => redo_cons_some doc d rest nd hs hc⟩
  · intro h
    cases hs : doc.history.undo_stack with
    | nil => rfl
    | cons d rest =>
        cases hc : doc.data.compose d with
        | none => rw [undo_cons_none doc d rest hs hc] at h; simp at h
        | some nd => rw [undo_cons_some doc d rest nd hs hc] at h; simp at h
  · intro hs
    rw [undo_empty doc hs]
  · intro h
    cases hs : doc.history.redo_stack with
    | nil => rfl
    | cons d rest =>
        cases hc : doc.data.compose d with
        | none => rw [redo_cons_none doc d rest hs hc] at h; simp at h
        | some nd => rw [redo_cons_some doc d rest nd hs hc] at h; simp at h
  · intro hs
    rw [redo_empty doc hs]
  · intro e h
    cases hs : doc.history.undo_stack with
    | nil => rw [undo_empty doc hs]; exact ⟨rfl, rfl⟩
    | cons d rest =>
        cases hc : doc.data.compose d with
        | none => rw [undo_cons_none doc d rest hs hc]; exact ⟨rfl, rfl⟩
        | some nd => rw [undo_cons_some doc d rest nd hs hc] at h; simp at h
  · intro e h
    cases hs : doc.history.redo_stack with
    | nil => rw [redo_empty doc hs]; exact ⟨rfl, rfl⟩
    | cons d rest =>
        cases hc : doc.data.compose d with
        | none => rw [redo_cons_none doc d rest hs hc]; exact ⟨rfl, rfl⟩
        | some nd => rw [redo_cons_some doc d rest nd hs hc] at h; simp at h

/-- C3 witness: the contract at concrete documents — a fresh document fails
with UndoFail and is left unchanged; a document with one undo entry does not
fail with UndoFail. -/
theorem C3_undo_redo_error_contract_witness :
    (Document.new.undo).1 = OTResult.fail .UndoFail
    ∧ (Document.new.undo).2.data = Document.new.data
    ∧ (doc_x.undo).1 ≠ OTResult.fail .UndoFail := by
  have h1 := C3_undo_redo_error_contract Document.new
  have h2 := C3_undo_redo_error_contract doc_x
  have hfail : (Document.new.undo).1 = OTResult.fail .UndoFail := h1.1.mpr rfl
  refine ⟨hfail, (h1.2.2.1 .UndoFail hfail).1, fun hcontra => ?_⟩
  exact absurd (h2.1.mp hcontra) (by decide)

/-- C8 counterexample: one effective edit brings the counter to 2; undo then
succeeds but leaves the counter at 2 instead of advancing it — so undo is a
mutating operation that does not advance the revision counter. -/
theorem C8_counterexample_undo_does_not_advance :
    Document.new.edit 0 "x" = some c8_doc
    ∧ c8_doc.rev_id_counter = 2
    ∧ (c8_doc.undo).1 = OTResult.ok ⟨0⟩
    ∧ (c8_doc.undo).2.rev_id_counter = 2 := by decide

/-- C8 (amended): the revision counter never decreases; it is advanced by
exactly one on every successful edit, delete and format (the rebuild step),
while undo, redo and the convergence procedure leave it unchanged. -/
theorem C8_revision_counter_amended (doc : Document) :
    (∀ (op : Operation) (iv : Interval) (doc' : Document),
        doc.update_with_op op iv = some doc' →
          doc'.rev_id_counter = doc.rev_id_counter + 1)
    ∧ (∀ (i : Nat) (t : String) (doc' : Document),
        doc.edit i t = some doc' → doc'.rev_id_counter = doc.rev_id_counter + 1)
    ∧ (∀ (iv : Interval) (doc' : Document),
        doc.delete iv = some doc' → doc'.rev_id_counter = doc.rev_id_counter + 1)
    ∧ (∀ (iv : Interval) (a : String) (enable : Bool) (doc' : Document),
        doc.format iv a enable = some doc' →
          doc'.rev_id_counter = doc.rev_id_counter + 1)
    ∧ (doc.undo).2.rev_id_counter = doc.rev_id_counter
    ∧ (doc.redo).2.rev_id_counter = doc.rev_id_counter
    ∧ (∀ (r l' r' : Document), transform doc r = some (l', r') →
        l'.rev_id_counter = doc.rev_id_counter
        ∧ r'.rev_id_counter = r.rev_id_counter) := by
  have main : ∀ (op : Operation) (iv : Interval) (doc' : Document),
      doc.update_with_op op iv = some doc' →
        doc'.rev_id_counter = doc.rev_id_counter + 1 :=
    fun op iv doc' h => (update_with_op_inv h).2.2
  refine ⟨main, fun i t doc' h => main _ _ _ h, fun iv doc' h => main _ _ _ h,
    fun iv a enable doc' h => main _ _ _ h, ?_, ?_, ?_⟩
  · cases hs : doc.history.undo_stack with
    | nil => rw [undo_empty doc hs]
    | cons d rest =>
        cases hc : doc.data.compose d with
        | none => rw [undo_cons_none doc d rest hs hc]
        | some nd => rw [undo_cons_some doc d rest nd hs hc]
  · cases hs : doc.history.redo_stack with
    | nil => rw [redo_empty doc hs]
    | cons d rest =>
        cases hc : doc.data.compose d with
        | none => rw [redo_cons_none doc d rest hs hc]
        | some nd => rw [redo_cons_some doc d rest nd hs hc]
  · intro r l' r' h
    unfold transform at h
    cases ht : doc.data.transform r.data with
    | none => rw [ht] at h; simp at h
    | some p =>
        obtain ⟨aP, bP⟩ := p
        rw [ht] at h
        dsimp only at h
        cases hc1 : doc.data.compose bP with
        | none => rw [hc1] at h; simp at h
        | some dl =>
            cases hc2 : r.data.compose aP with
            | none => rw [hc1, hc2] at h; simp at h
            | some dr =>
                rw [hc1, hc2] at h
                simp only [Option.some.injEq, Prod.mk.injEq] at h
                obtain ⟨h1, h2⟩ := h
                subst h1
                subst h2
                exact ⟨rfl, rfl⟩

/-- C9 counterexample: an edit inserting the empty string produces an empty
inverse, which is not pushed (document.rs:134-136), so after that one edit
can_undo() is still false, refuting "after one edit it has can_undo() =
true". -/
theorem C9_counterexample_noop_edit :
    (Document.new.edit 0 "").map Document.can_undo = some false := by decide

/-- C9 (amended): a fresh Document has a zero-length delta, empty history,
revision counter 1, can_undo() = false and can_redo() = false; after one
edit inserting at least one character, can_undo() = true and can_redo() =
false; after one subsequent undo, can_redo() = true. -/
theorem C9_fresh_history_amended :
    Document.new.data.target_len = 0
    ∧ Document.new.history = History.new
    ∧ Document.new.rev_id_counter = 1
    ∧ Document.new.can_undo = false
    ∧ Document.new.can_redo = false
    ∧ (∀ (i : Nat) (text : String), text.data ≠ [] →
        ∃ d1 : Document, Document.new.edit i text = some d1
          ∧ d1.can_undo = true ∧ d1.can_redo = false
          ∧ (apply_undo d1).can_redo = true) := by
  refine ⟨rfl, rfl, rfl, rfl, rfl, fun i text htext => ?_⟩
  refine ⟨_, edit_fresh i text htext, rfl, rfl, ?_⟩
  set X := text.data.map (fun c => (c, Attributes.Follow)) with hX
  have hXlen : X.length = text.data.length := by simp [hX]
  have hc2 : (state_of X).compose ⟨[.Delete text.data.length]⟩
      = some (state_of (apply_ops (state_of X).flatten [.Delete text.data.length])) := by
    simp [Delta.compose, state_of_target_len, Delta.base_len, Operation.base_length,
      hXlen]
  unfold apply_undo
  rw [undo_cons_some _ _ _ _ rfl hc2]
  rfl

/-- C9 witness: the amended fresh-state law at a concrete one-character
edit. -/
theorem C9_fresh_history_witness :
    Document.new.can_undo = false
    ∧ ∃ d1 : Document, Document.new.edit 0 "x" = some d1 ∧ d1.can_undo = true
        ∧ (apply_undo d1).can_redo = true := by
  have h := C9_fresh_history_amended
  obtain ⟨d1, h1, h2, h3, h4⟩ := h.2.2.2.2.2 0 "x" (by decide)
  exact ⟨h.2.2.2.1, d1, h1, h2, h4⟩

/-- C8 witness: the amended counter behavior at a concrete edit and undo. -/
theorem C8_revision_counter_witness :
    doc_x.rev_id_counter = Document.new.rev_id_counter + 1
    ∧ (doc_x.undo).2.rev_id_counter = doc_x.rev_id_counter := by
  have hed : Document.new.edit 0 "x" = some doc_x := by decide
  exact ⟨(C8_revision_counter_amended Document.new).2.1 0 "x" doc_x hed,
    (C8_revision_counter_amended doc_x).2.2.2.2.1⟩

/-- C1: for two Documents whose current deltas are states diverged from the
common (empty) ancestor — hence declaring the same input length — the
convergence procedure transforms the pair, composes left's state with B′ and
right's state with A′, and leaves both Documents with equal, hence
textually identical, exported states. -/
theorem C1_transform_convergence (left right : Document)
    (hl : left.data.is_state = true) (hr : right.data.is_state = true) :
    ∃ (a_prime b_prime dl dr : Delta),
      left.data.transform right.data = some (a_prime, b_prime)
      ∧ left.data.compose b_prime = some dl
      ∧ right.data.compose a_prime = some dr
      ∧ transform left right = some (left.set_data dl, right.set_data dr)
      ∧ dl = dr
      ∧ dl.to_json = dr.to_json := by
  have ht := transform_state left.data right.data hl hr
  have hc1 := compose_transformed_right left.data right.data hl hr
  have hc2 := compose_transformed_left left.data right.data hl hr
  refine ⟨⟨left.data.ops ++ [.Retain right.data.target_len .Empty]⟩,
    ⟨.Retain left.data.target_len .Empty :: right.data.ops⟩,
    state_of (left.data.flatten ++ right.data.flatten),
    state_of (left.data.flatten ++ right.data.flatten),
    ht, hc1, hc2, ?_, rfl, rfl⟩
  unfold transform
  rw [ht]
  dsimp only
  rw [hc1, hc2]

/-- C4 counterexample: on a document whose redo stack holds a stale entry
(fresh document, edit "x", undo), a one-edit sequence consisting of the
no-op edit(0, "") pushes no undo entry, so undo-then-redo fires the stale
redo entry and lands on "x" instead of restoring the post-edit state "". -/
theorem C4_counterexample_stale_redo :
    c4_mid.history.redo_stack ≠ []
    ∧ c4_mid.edit 0 "" = some c4_post
    ∧ (iter_apply apply_redo 1 (iter_apply apply_undo 1 c4_post)).data ≠ c4_post.data
    ∧ (iter_apply apply_redo 1 (iter_apply apply_undo 1 c4_post)).data.to_json
        ≠ c4_post.data.to_json := by decide

/-- C4 (amended): for every document in normalized state whose redo stack is
empty when the edit sequence begins, applying any sequence of N edits
(edit/delete/format) that completes without panicking, then N undos, then N
redos, restores the document data — hence content — to the state immediately
after the N edits. -/
theorem C4_undo_redo_inverse_amended (doc : Document) (cmds : List Cmd)
    (docN : Document) (hbn : doc.data.is_normal)
    (hredo : doc.history.redo_stack = [])
    (happ : apply_cmds doc cmds = some docN) :
    (iter_apply apply_redo cmds.length (iter_apply apply_undo cmds.length docN)).data
      = docN.data := by
  obtain ⟨hbnN, hrN⟩ := apply_cmds_preserves happ hbn
  rw [hredo] at hrN
  obtain ⟨pushed, hlen, hrs, _, hch⟩ := undo_phase cmds.length docN hbnN
  rw [hrN, List.append_nil] at hrs
  exact redo_phase pushed cmds.length _ docN.data hch hrs hlen

/-- C4 witness: the amended inverse law at the concrete one-edit sequence
[edit 0 "hi"] from a fresh document. -/
theorem C4_undo_redo_inverse_witness :
    apply_cmds Document.new [Cmd.edit 0 "hi"] = some c4w_doc
    ∧ (iter_apply apply_redo 1 (iter_apply apply_undo 1 c4w_doc)).data
        = c4w_doc.data := by
  have h : apply_cmds Document.new [Cmd.edit 0 "hi"] = some c4w_doc := by decide
  exact ⟨h, C4_undo_redo_inverse_amended Document.new [Cmd.edit 0 "hi"] c4w_doc
    (by decide) rfl h⟩

/-- C1 witness: the convergence property at two concrete state documents. -/
theorem C1_transform_convergence_witness :
    ∃ (a_prime b_prime dl dr : Delta),
      doc_x.data.transform Document.new.data = some (a_prime, b_prime)
      ∧ doc_x.data.compose b_prime = some dl
      ∧ Document.new.data.compose a_prime = some dr
      ∧ transform doc_x Document.new =
          some (doc_x.set_data dl, Document.new.set_data dr)
      ∧ dl = dr
      ∧ dl.to_json = dr.to_json :=
  C1_transform_convergence doc_x Document.new (by decide) (by decide)

end FlowyOT
